import Mathlib

/-!
Verification of the syscall-description extraction pipeline
(`tools/syz-declextract/declextract.go`).

The Go source is shallowly embedded below.  Strings are Lean `String`s;
the Go string primitives used by the source (`strings.Fields`,
`strings.HasPrefix`, `strings.TrimPrefix`, `strings.Contains`,
`strings.Compare`) are re-implemented over `List Char` so that every
definition evaluates by kernel reduction.  Go byte-wise comparison and
Lean code-point comparison agree on the ASCII data handled here.
-/


/-- The ASCII white-space characters recognized by `strings.Fields`
(`unicode.IsSpace` restricted to ASCII, which is all the table files use). -/
def goIsSpace (c : Char) : Bool :=
  c = ' ' || c = '\t' || c = '\n' || c = '\x0b' || c = '\x0c' || c = '\r'

/-- Accumulator-based splitter behind `goFields`.  `acc` holds the current
field reversed. -/
def fieldsAux : List Char → List Char → List String
  | acc, [] => if acc.isEmpty then [] else [String.mk acc.reverse]
  | acc, c :: rest =>
    if goIsSpace c then
      if acc.isEmpty then fieldsAux [] rest
      else String.mk acc.reverse :: fieldsAux [] rest
    else fieldsAux (c :: acc) rest

/-- `strings.Fields`: split around runs of white space, dropping empty fields. -/
def goFields (s : String) : List String := fieldsAux [] s.data

/-- `strings.HasPrefix(s, pre)`. -/
def goHasPre (s pre : String) : Bool := pre.data.isPrefixOf s.data

/-- `strings.TrimPrefix(s, pre)`. -/
def goTrimPre (s pre : String) : String :=
  if goHasPre s pre then String.mk (s.data.drop pre.data.length) else s

/-- Does `sub` occur starting at some position of the second list? -/
def goContainsAux (sub : List Char) : List Char → Bool
  | [] => sub.isEmpty
  | c :: rest => sub.isPrefixOf (c :: rest) || goContainsAux sub rest

/-- `strings.Contains(s, sub)`. -/
def goContains (s sub : String) : Bool := goContainsAux sub.data s.data

/-- Lexicographic three-way comparison on character lists, the model of
byte-wise `strings.Compare`. -/
def charListCmp : List Char → List Char → Ordering
  | [], [] => Ordering.eq
  | [], _ :: _ => Ordering.lt
  | _ :: _, [] => Ordering.gt
  | a :: as, b :: bs =>
    if a < b then Ordering.lt
    else if b < a then Ordering.gt
    else charListCmp as bs

/-- `strings.Compare`. -/
def strCmp (a b : String) : Ordering := charListCmp a.data b.data

/-- One row parsed from a syscall table file (struct `tblSyscall`). -/
structure tblSyscall where
  fn : String
  arch : String
  is64bit : Bool
deriving DecidableEq, Repr

/-- Field extraction step of `parseTblFile` for a single line: the
`strings.Fields` split, the `len(fields) < 4 || fields[0] == "#"` skip,
and the `sys_` entry-symbol strip.  Returns `(group, syscall, fn)`. -/
def lineCandidate (line : String) : Option (String × String × String) :=
  let fields := goFields line
  if fields.length < 4 ∨ fields.headD "" = "#" then none
  else some (fields.getD 1 "", fields.getD 2 "", goTrimPre (fields.getD 3 "") "sys_")

/-- The exclusion filter of `parseTblFile`: candidates dropped before
aggregation. -/
def excludedTbl (group syscall fn : String) : Bool :=
  goHasPre syscall "unused" || decide (fn = "-") || decide (group = "spu") ||
    decide (syscall = "llseek") || decide (syscall = "reboot")

/-- Full per-line behaviour of the `parseTblFile` loop body: `none` when the
line is skipped or excluded, otherwise the `(syscall, tblSyscall)` pair that
is appended to the aggregation map. -/
def parseTblLine (arch line : String) : Option (String × tblSyscall) :=
  match lineCandidate line with
  | none => none
  | some (group, syscall, fn) =>
    if excludedTbl group syscall fn then none
    else some (syscall, { fn := fn, arch := arch,
                          is64bit := decide (group = "common") || goContains group "64" })

/-- Go maps from `string` to value-slices are modelled as association lists;
iteration order of the Go map is the list order, which the theorems
quantify over where it matters. -/
def addVal {β : Type} (m : List (String × List β)) (k : String) (v : β) :
    List (String × List β) :=
  match m with
  | [] => [(k, [v])]
  | kv :: rest => if kv.1 = k then (kv.1, kv.2 ++ [v]) :: rest else kv :: addVal rest k v

/-- Go map lookup (missing key yields the empty slice). -/
def lookupVals {β : Type} (m : List (String × List β)) (k : String) : List β :=
  match m with
  | [] => []
  | kv :: rest => if kv.1 = k then kv.2 else lookupVals rest k

/-- Aggregation map of `buildSyscallRenameMap`: syscall name to the candidate
records collected for it. -/
abbrev TblMap := List (String × List tblSyscall)

/-- `parseTblFile`: scan the lines of one table file for one architecture,
appending surviving candidates into the aggregation map. -/
def parseTblFile (data : List String) (arch : String) (syscalls : TblMap) : TblMap :=
  data.foldl
    (fun m line =>
      match parseTblLine arch line with
      | none => m
      | some (k, v) => addVal m k v)
    syscalls

/-- The comparator passed to `slices.SortFunc` in `buildSyscallRenameMap`:
target-architecture records first, then 64-bit records, then architectures
in ascending lexicographic order. -/
def tblCmp (targetArch : String) (a b : tblSyscall) : Ordering :=
  if decide (a.arch = targetArch) ≠ decide (b.arch = targetArch) then
    (if a.arch = targetArch then Ordering.lt else Ordering.gt)
  else if a.is64bit ≠ b.is64bit then
    (if a.is64bit then Ordering.lt else Ordering.gt)
  else strCmp a.arch b.arch

/-- The not-greater relation induced by `tblCmp`; `slices.SortFunc` sorts
into an order that is pairwise non-decreasing for it. -/
def tblLe (targetArch : String) (a b : tblSyscall) : Bool :=
  tblCmp targetArch a b ≠ Ordering.gt

/-- `slices.SortFunc(descs, cmp)`.  The Go sort is unstable; any comparator
respecting order is a faithful outcome, and we model it with insertion sort,
which evaluates by kernel reduction. -/
def sortTbl (targetArch : String) (descs : List tblSyscall) : List tblSyscall :=
  descs.insertionSort (fun a b => tblLe targetArch a b = true)

/-- Placeholder record; `descs[0]` in the source, where every map value is a
nonempty slice, so the default is never consulted. -/
def dummyTbl : tblSyscall := { fn := "", arch := "", is64bit := false }

/-- `descs[0].fn` after the sort: the authoritative entry symbol for one
syscall name's candidate list. -/
def winnerFn (targetArch : String) (descs : List tblSyscall) : String :=
  ((sortTbl targetArch descs).headD dummyTbl).fn

/-- The emitted rename (identity) map: entry-point symbol to the syscall
names it implements. -/
abbrev RenameMap := List (String × List String)

/-- The final loop of `buildSyscallRenameMap`: iterate the aggregation map
(in the given iteration order), sort each candidate list, and append the
syscall name under its winning entry symbol. -/
def buildRenameFrom (targetArch : String) (syscalls : TblMap) : RenameMap :=
  syscalls.foldl (fun rename kv => addVal rename (winnerFn targetArch kv.2) kv.1) []

/-- The reading/parsing loop of `buildSyscallRenameMap` over the discovered
table files: each file is a pair of its lines and the architecture
identifiers it serves, and is parsed once per architecture. -/
def aggregateTbl (tblFiles : List (List String × List String)) : TblMap :=
  tblFiles.foldl (fun m fa => fa.2.foldl (fun m arch => parseTblFile fa.1 arch m) m) []

/-- `buildSyscallRenameMap`: fail when no table files were discovered,
otherwise aggregate and resolve.  File contents are supplied directly, so
the read step cannot fail here. -/
def buildSyscallRenameMap (sourceDir targetArch : String)
    (tblFiles : List (List String × List String)) : Except String RenameMap :=
  if tblFiles.length = 0 then
    Except.error ("found no *.tbl files in the kernel dir " ++ sourceDir)
  else
    Except.ok (buildRenameFrom targetArch (aggregateTbl tblFiles))

/-- A declaration node of the parsed description document, reduced to the
triple returned by `n.Info()` in the source: source file, kind, and name. -/
structure Node where
  file : String
  typ : String
  name : String
deriving DecidableEq, Repr

/-- `slices.DeleteFunc`: remove the elements satisfying the predicate. -/
def deleteFunc {α : Type} (del : α → Bool) (l : List α) : List α :=
  l.filter (fun x => !del x)

/-- The pruning step of `run`: `unusedKeys` holds the `typ+name` keys of the
unused-node map, and a node is deleted when its position is not the
synthesized file or its key is marked unused. -/
def pruneNodes (autoFile : String) (unusedKeys : List String) (nodes : List Node) :
    List Node :=
  deleteFunc (fun n => decide (n.file ≠ autoFile) || unusedKeys.contains (n.typ ++ n.name))
    nodes

/-- One row of the interface catalog (`declextract.Interface`), with the
fields that `run`, `serialize` and `finishInterfaces` touch. -/
structure Interface where
  typ : String
  name : String
  func : String
  access : String
  manualDescriptions : Bool
  autoDescriptions : Bool
  identifyingConst : String
  files : List String
  subsystems : List String
deriving DecidableEq, Repr

/-- Go `%v` formatting of a boolean. -/
def boolStr (b : Bool) : String := if b then "true" else "false"

/-- The body of one catalog line as built by the `Fprintf` calls of
`serialize`, before the final newline. -/
def serializeBody (i : Interface) : String :=
  i.subsystems.foldl (fun acc s => acc ++ "\tsubsystem:" ++ s)
    (i.files.foldl (fun acc f => acc ++ "\tfile:" ++ f)
      (i.typ ++ "\t" ++ i.name ++ "\tfunc:" ++ i.func ++ "\taccess:" ++ i.access ++
        "\tmanual_desc:" ++ boolStr i.manualDescriptions ++
        "\tauto_desc:" ++ boolStr i.autoDescriptions))

/-- One catalog line of `serialize`, newline terminated. -/
def serializeIface (i : Interface) : String := serializeBody i ++ "\n"

/-- `serialize`: the catalog file contents, one line per record in order. -/
def serialize (interfaces : List Interface) : String :=
  interfaces.foldl (fun acc i => acc ++ serializeIface i) ""

/-- The `manual` set built by `finishInterfaces`: names of constants declared
by any source file other than the synthesized one.  `consts` is the
per-file constant map (file, declared constant names). -/
def buildManual (consts : List (String × List String)) (autoFile : String) : List String :=
  consts.foldl
    (fun manual fc =>
      fc.2.foldl (fun manual c => if fc.1 ≠ autoFile then c :: manual else manual) manual)
    []

/-- `slices.Sort` on strings, modelled like `sortTbl` by insertion sort over
the byte-wise order. -/
def sortStr (l : List String) : List String :=
  l.insertionSort (fun a b => strCmp a b ≠ Ordering.gt)

/-- The loop body of `finishInterfaces` for one record: set the
manual-description flag from the `manual` set, append the subsystem names
the external classifier returns for the record's files, and sort them.
The classifier (`subsystem.Extractor.Extract`, an external collaborator of
this pipeline) is abstracted as the function `extract` from the record's
file list to subsystem names. -/
def finishOne (extract : List String → List String) (manual : List String)
    (iface : Interface) : Interface :=
  { iface with
    manualDescriptions := manual.contains iface.identifyingConst
    subsystems := sortStr (iface.subsystems ++ extract iface.files) }

/-- `finishInterfaces`: enrich every record in place. -/
def finishInterfaces (extract : List String → List String)
    (consts : List (String × List String)) (autoFile : String)
    (interfaces : List Interface) : List Interface :=
  interfaces.map (finishOne extract (buildManual consts autoFile))

/-- The file writes performed by one `run` invocation, in program order:
the synthesized description file, the provisional catalog, the enriched
catalog, and the final pruned/reformatted description file.  The contents
are abstract; only the destination paths matter for the frame property. -/
def runWrites (autoFile : String) (descriptions info1 info2 formatted : String) :
    List (String × String) :=
  [(autoFile, descriptions), (autoFile ++ ".info", info1),
   (autoFile ++ ".info", info2), (autoFile, formatted)]

/-- Rank of a record under criterion (a) of the tie-break: records whose
architecture equals the target sort first. -/
def archRank (targetArch : String) (a : tblSyscall) : Nat :=
  if a.arch = targetArch then 0 else 1

/-- Rank of a record under criterion (b): 64-bit records sort first. -/
def bitRank (a : tblSyscall) : Nat := if a.is64bit then 0 else 1

/-- The spec-side reading of the tie-break: lexicographic priority of
target-architecture match, 64-bitness, then ascending architecture name. -/
def specLe (targetArch : String) (a b : tblSyscall) : Prop :=
  archRank targetArch a < archRank targetArch b ∨
    (archRank targetArch a = archRank targetArch b ∧
      (bitRank a < bitRank b ∨ (bitRank a = bitRank b ∧ a.arch ≤ b.arch)))

/-- The comparator's key as an element of a lexicographic linear order. -/
def tblKey (targetArch : String) (a : tblSyscall) : Nat ×ₗ Nat ×ₗ String :=
  toLex (archRank targetArch a, toLex (bitRank a, a.arch))

/-- A syscall name excluded by name alone: such a name can never be a key of
the aggregation map, whatever line produced it. -/
def exclName (name : String) : Prop :=
  goHasPre name "unused" = true ∨ name = "llseek" ∨ name = "reboot"

/-- Join fields with single tab separators (the shape of one catalog line). -/
def joinTab : List String → String
  | [] => ""
  | [a] => a
  | a :: b :: rest => a ++ "\t" ++ joinTab (b :: rest)

/-- Concatenation of `tag ++ x` over a list, the shape of the repeated
trailing fields of a catalog line. -/
def tagJoin (tag : String) : List String → String
  | [] => ""
  | x :: xs => tag ++ x ++ tagJoin tag xs

/-- Character-level variant of `joinTab`. -/
def joinChars : List (List Char) → List Char
  | [] => []
  | [f] => f
  | f :: g :: rest => f ++ '\t' :: joinChars (g :: rest)

/-- Split a character list at tabs (inverse of `joinChars` on tab-free
fields). -/
def splitTabAux : List Char → List (List Char)
  | [] => [[]]
  | c :: rest =>
    if c = '\t' then [] :: splitTabAux rest
    else
      match splitTabAux rest with
      | [] => [[c]]
      | f :: fs => (c :: f) :: fs

/-- The tab-separated fields of a line. -/
def tabFields (s : String) : List String := (splitTabAux s.data).map String.mk

/-- How many fields precede the first repeated `file:`/`subsystem:` field of
a serialized catalog line. -/
def fixedFieldCount (line : String) : Nat :=
  ((tabFields line).takeWhile
    (fun f => !(goHasPre f "file:") && !(goHasPre f "subsystem:"))).length

/-- The field list a catalog line is expected to carry: the six fixed fields,
then the tagged file fields, then the tagged subsystem fields. -/
def ifaceFields (i : Interface) : List String :=
  [i.typ, i.name, "func:" ++ i.func, "access:" ++ i.access,
   "manual_desc:" ++ boolStr i.manualDescriptions,
   "auto_desc:" ++ boolStr i.autoDescriptions] ++
    i.files.map (fun f => "file:" ++ f) ++ i.subsystems.map (fun s => "subsystem:" ++ s)

/-- Concrete interface record used in the catalog examples. -/
def exIface : Interface :=
  { typ := "ioctl", name := "KVM_RUN", func := "kvm_vcpu_ioctl", access := "user",
    manualDescriptions := false, autoDescriptions := true, identifyingConst := "KVM_RUN",
    files := ["virt/kvm/kvm_main.c"], subsystems := [] }

/-! ### Sanity examples and theorems -/

-- Sanity examples (parsing, exclusion, tie-break), all by kernel reduction.
example : goFields "288      common  accept4                 sys_accept4" =
    ["288", "common", "accept4", "sys_accept4"] := by decide
example : parseTblLine "amd64" "288 common accept4 sys_accept4" =
    some ("accept4", { fn := "accept4", arch := "amd64", is64bit := true }) := by decide
example : parseTblLine "amd64" "62 32 llseek sys_llseek" = none := by decide
example : parseTblLine "amd64" "1 spu restart_syscall sys_restart_syscall" = none := by decide
example :
    buildSyscallRenameMap "linux" "amd64" [(["288 common accept4 sys_accept4"], ["amd64"])] =
      Except.ok [("accept4", ["accept4"])] := by rfl
example :
    buildRenameFrom "amd64"
      [("X", [{ fn := "B", arch := "arm64", is64bit := true },
              { fn := "A", arch := "amd64", is64bit := false }])] = [("A", ["X"])] := by decide

example :
    pruneNodes "sys/linux/auto.txt" ["resourcefd"]
      [{ file := "sys/linux/auto.txt", typ := "resource", name := "fd" },
       { file := "sys/linux/auto.txt", typ := "syscall", name := "openat" },
       { file := "sys/linux/sys.txt", typ := "syscall", name := "mmap" }] =
      [{ file := "sys/linux/auto.txt", typ := "syscall", name := "openat" }] := by decide

example :
    serializeIface
      { typ := "SYSCALL", name := "accept4", func := "__sys_accept4", access := "user",
        manualDescriptions := true, autoDescriptions := true, identifyingConst := "",
        files := ["net/socket.c"], subsystems := ["net"] } =
      "SYSCALL\taccept4\tfunc:__sys_accept4\taccess:user\tmanual_desc:true" ++
        "\tauto_desc:true\tfile:net/socket.c\tsubsystem:net\n" := by decide

example : sortStr ["net", "fs"] = ["fs", "net"] := by decide

example :
    (finishOne (fun _ => ["net", "fs"]) ["KVM_RUN"]
      { typ := "ioctl", name := "KVM_RUN", func := "kvm_vcpu_ioctl", access := "user",
        manualDescriptions := false, autoDescriptions := true,
        identifyingConst := "KVM_RUN", files := ["virt/kvm/kvm_main.c"],
        subsystems := [] }).subsystems = ["fs", "net"] := by decide

theorem charListCmp_swap : ∀ as bs : List Char, charListCmp bs as = (charListCmp as bs).swap
  | [], [] => rfl
  | [], _ :: _ => rfl
  | _ :: _, [] => rfl
  | a :: as, b :: bs => by
    simp only [charListCmp]
    rcases lt_trichotomy a b with h | h | h
    · simp [h, asymm h, Ordering.swap]
    · subst h
      simp [lt_irrefl, charListCmp_swap as bs]
    · simp [h, asymm h, Ordering.swap]

theorem charListCmp_lt_iff : ∀ as bs : List Char,
    charListCmp as bs = Ordering.lt ↔ List.Lex (· < ·) as bs
  | [], [] => iff_of_false (by simp [charListCmp]) (fun h => nomatch h)
  | [], _ :: _ => iff_of_true rfl List.Lex.nil
  | _ :: _, [] => iff_of_false (by simp [charListCmp]) (fun h => nomatch h)
  | a :: as, b :: bs => by
    simp only [charListCmp]
    rcases lt_trichotomy a b with h | h | h
    · rw [if_pos h]
      exact iff_of_true rfl (List.Lex.rel h)
    · subst h
      rw [if_neg (lt_irrefl a), if_neg (lt_irrefl a), List.Lex.cons_iff]
      exact charListCmp_lt_iff as bs
    · rw [if_neg (asymm h), if_pos h]
      refine iff_of_false (by simp) (fun hl => ?_)
      cases hl with
      | cons h2 => exact lt_irrefl _ h
      | rel h2 => exact asymm h h2

theorem strCmp_gt_iff (a b : String) : strCmp a b = Ordering.gt ↔ b < a := by
  rw [String.lt_iff_toList_lt]
  constructor
  · intro h
    have hlt : charListCmp b.data a.data = Ordering.lt := by
      rw [charListCmp_swap a.data b.data]
      rw [show charListCmp a.data b.data = Ordering.gt from h]
      rfl
    exact (charListCmp_lt_iff _ _).mp hlt
  · intro h
    have hlt : charListCmp b.data a.data = Ordering.lt := (charListCmp_lt_iff _ _).mpr h
    show charListCmp a.data b.data = Ordering.gt
    rw [charListCmp_swap b.data a.data, hlt]
    rfl

theorem strCmp_le_iff (a b : String) : (strCmp a b ≠ Ordering.gt) ↔ a ≤ b := by
  rw [← not_lt]
  exact not_congr (strCmp_gt_iff a b)

theorem specLe_iff_key (t : String) (a b : tblSyscall) :
    specLe t a b ↔ tblKey t a ≤ tblKey t b := by
  simp [specLe, tblKey, Prod.Lex.le_iff]

theorem tblLe_iff_specLe (t : String) (a b : tblSyscall) :
    tblLe t a b = true ↔ specLe t a b := by
  by_cases ha : a.arch = t <;> by_cases hb : b.arch = t <;>
    cases h64a : a.is64bit <;> cases h64b : b.is64bit <;>
      simp [tblLe, tblCmp, specLe, archRank, bitRank, ha, hb, h64a, h64b, strCmp_le_iff]

theorem tblLe_trans (t : String) (a b c : tblSyscall)
    (h1 : tblLe t a b = true) (h2 : tblLe t b c = true) : tblLe t a c = true := by
  rw [tblLe_iff_specLe, specLe_iff_key] at h1 h2 ⊢
  exact le_trans h1 h2

theorem tblLe_total (t : String) (a b : tblSyscall) :
    tblLe t a b = true ∨ tblLe t b a = true := by
  rw [tblLe_iff_specLe, specLe_iff_key, tblLe_iff_specLe, specLe_iff_key]
  exact le_total _ _

theorem sortTbl_perm (t : String) (l : List tblSyscall) : (sortTbl t l).Perm l :=
  List.perm_insertionSort _ l

theorem sortTbl_sorted (t : String) (l : List tblSyscall) :
    (sortTbl t l).Pairwise (specLe t) := by
  haveI : IsTrans tblSyscall (fun a b => tblLe t a b = true) :=
    ⟨fun a b c => tblLe_trans t a b c⟩
  haveI : IsTotal tblSyscall (fun a b => tblLe t a b = true) :=
    ⟨fun a b => tblLe_total t a b⟩
  have h := List.sorted_insertionSort (fun a b => tblLe t a b = true) l
  exact List.Pairwise.imp (fun hab => (tblLe_iff_specLe t _ _).mp hab) h

theorem sortStr_perm (l : List String) : (sortStr l).Perm l :=
  List.perm_insertionSort _ l

theorem sortStr_sorted (l : List String) : (sortStr l).Pairwise (· ≤ ·) := by
  haveI : IsTrans String (fun a b : String => strCmp a b ≠ Ordering.gt) :=
    ⟨fun a b c ha hb =>
      (strCmp_le_iff a c).mpr (le_trans ((strCmp_le_iff a b).mp ha) ((strCmp_le_iff b c).mp hb))⟩
  haveI : IsTotal String (fun a b : String => strCmp a b ≠ Ordering.gt) :=
    ⟨fun a b => by
      rcases le_total a b with h | h
      · exact Or.inl ((strCmp_le_iff a b).mpr h)
      · exact Or.inr ((strCmp_le_iff b a).mpr h)⟩
  have h := List.sorted_insertionSort (fun a b : String => strCmp a b ≠ Ordering.gt) l
  exact List.Pairwise.imp (fun hab => (strCmp_le_iff _ _).mp hab) h

theorem lookupVals_addVal {β : Type} (m : List (String × List β)) (k : String) (v : β)
    (x : String) :
    lookupVals (addVal m k v) x =
      if x = k then lookupVals m x ++ [v] else lookupVals m x := by
  induction m with
  | nil =>
    by_cases hx : x = k
    · subst hx
      simp [addVal, lookupVals]
    · have h2 : ¬ k = x := fun h => hx h.symm
      simp [addVal, lookupVals, hx, h2]
  | cons kv rest ih =>
    by_cases h1 : kv.1 = k
    · by_cases hx : x = k
      · subst hx
        simp [addVal, h1, lookupVals]
      · have h2 : ¬ k = x := fun h => hx h.symm
        have h3 : ¬ kv.1 = x := h1 ▸ h2
        simp [addVal, h1, lookupVals, h2, h3, hx]
    · by_cases hx : kv.1 = x
      · have h2 : ¬ x = k := fun h => h1 (hx.trans h)
        simp [addVal, h1, lookupVals, hx, h2]
      · simp [addVal, h1, lookupVals, hx, ih]

theorem keys_addVal {β : Type} (m : List (String × List β)) (k : String) (v : β) :
    (addVal m k v).map Prod.fst =
      if k ∈ m.map Prod.fst then m.map Prod.fst else m.map Prod.fst ++ [k] := by
  induction m with
  | nil => simp [addVal]
  | cons kv rest ih =>
    by_cases h1 : kv.1 = k
    · simp [addVal, h1]
    · have hne : ¬ k = kv.1 := fun h => h1 h.symm
      by_cases h2 : k ∈ rest.map Prod.fst <;>
        simp [addVal, h1, ih, h2, hne]

theorem keys_nodup_addVal {β : Type} (m : List (String × List β)) (k : String) (v : β)
    (h : (m.map Prod.fst).Nodup) : ((addVal m k v).map Prod.fst).Nodup := by
  rw [keys_addVal]
  by_cases h2 : k ∈ m.map Prod.fst
  · simpa [h2] using h
  · rw [if_neg h2, List.nodup_append]
    refine ⟨h, List.nodup_singleton k, ?_⟩
    intro a ha hak
    rw [List.mem_singleton] at hak
    exact h2 (hak ▸ ha)

theorem entry_unique {β : Type} (m : List (String × β)) (h : (m.map Prod.fst).Nodup)
    (k : String) (v v' : β) (h1 : (k, v) ∈ m) (h2 : (k, v') ∈ m) : v = v' := by
  induction m with
  | nil => cases h1
  | cons kv rest ih =>
    simp only [List.map_cons, List.nodup_cons] at h
    rcases List.mem_cons.mp h1 with he1 | hr1 <;> rcases List.mem_cons.mp h2 with he2 | hr2
    · exact (Prod.ext_iff.mp (he1.trans he2.symm)).2
    · have hk : k = kv.1 := congrArg Prod.fst he1
      exact absurd (hk ▸ List.mem_map_of_mem Prod.fst hr2) h.1
    · have hk : k = kv.1 := congrArg Prod.fst he2
      exact absurd (hk ▸ List.mem_map_of_mem Prod.fst hr1) h.1
    · exact ih h.2 hr1 hr2

/-- Generic preservation of an invariant through `List.foldl`. -/
theorem foldl_preserves {α σ : Type} (P : σ → Prop) (step : σ → α → σ)
    (h : ∀ s a, P s → P (step s a)) : ∀ (l : List α) (s : σ), P s → P (l.foldl step s) := by
  intro l
  induction l with
  | nil => intro s hs; exact hs
  | cons a l ih => intro s hs; exact ih _ (h s a hs)

theorem mem_lookupVals_fold (t : String) (m : TblMap) (r0 : RenameMap) (fn name : String) :
    (name ∈ lookupVals (m.foldl (fun r kv => addVal r (winnerFn t kv.2) kv.1) r0) fn) ↔
      name ∈ lookupVals r0 fn ∨ ∃ descs, (name, descs) ∈ m ∧ winnerFn t descs = fn := by
  induction m generalizing r0 with
  | nil => simp
  | cons kv rest ih =>
    rw [List.foldl_cons, ih, lookupVals_addVal]
    obtain ⟨sc, descs0⟩ := kv
    by_cases hfn : fn = winnerFn t descs0
    · rw [if_pos hfn]
      simp only [List.mem_append, List.mem_singleton, List.mem_cons, List.not_mem_nil,
        or_false, Prod.mk.injEq]
      constructor
      · rintro ((h | h) | h)
        · exact Or.inl h
        · exact Or.inr ⟨descs0, Or.inl ⟨h, rfl⟩, hfn.symm⟩
        · obtain ⟨d, hd, hw⟩ := h
          exact Or.inr ⟨d, Or.inr hd, hw⟩
      · rintro (h | ⟨d, (⟨h1, h2⟩ | hd), hw⟩)
        · exact Or.inl (Or.inl h)
        · exact Or.inl (Or.inr h1)
        · exact Or.inr ⟨d, hd, hw⟩
    · rw [if_neg hfn]
      simp only [List.mem_cons, Prod.mk.injEq]
      constructor
      · rintro (h | h)
        · exact Or.inl h
        · obtain ⟨d, hd, hw⟩ := h
          exact Or.inr ⟨d, Or.inr hd, hw⟩
      · rintro (h | ⟨d, (⟨h1, h2⟩ | hd), hw⟩)
        · exact Or.inl h
        · exact absurd (h2 ▸ hw).symm hfn
        · exact Or.inr ⟨d, hd, hw⟩

theorem mem_buildRenameFrom (t : String) (m : TblMap) (fn name : String) :
    (name ∈ lookupVals (buildRenameFrom t m) fn) ↔
      ∃ descs, (name, descs) ∈ m ∧ winnerFn t descs = fn := by
  have h := mem_lookupVals_fold t m [] fn name
  simpa [buildRenameFrom, lookupVals] using h

theorem keys_nodup_parseTblFile (data : List String) (arch : String) (m : TblMap)
    (h : (m.map Prod.fst).Nodup) : ((parseTblFile data arch m).map Prod.fst).Nodup := by
  refine foldl_preserves (fun s => (s.map Prod.fst).Nodup) _ ?_ data m h
  intro s line hs
  cases parseTblLine arch line with
  | none => exact hs
  | some kv => exact keys_nodup_addVal s kv.1 kv.2 hs

theorem keys_nodup_aggregateTbl (tblFiles : List (List String × List String)) :
    ((aggregateTbl tblFiles).map Prod.fst).Nodup := by
  have base : (([] : TblMap).map Prod.fst).Nodup := by simp
  refine foldl_preserves (fun s : TblMap => (s.map Prod.fst).Nodup) _ ?_ tblFiles [] base
  intro s fa hs
  exact foldl_preserves (fun s : TblMap => (s.map Prod.fst).Nodup) _
    (fun s arch hs => keys_nodup_parseTblFile fa.1 arch s hs) fa.2 s hs

theorem parseTblLine_not_exclName (arch line k : String) (v : tblSyscall)
    (h : parseTblLine arch line = some (k, v)) : ¬ exclName k := by
  unfold parseTblLine at h
  cases hc : lineCandidate line with
  | none => rw [hc] at h; cases h
  | some gsf =>
    obtain ⟨g, s, f⟩ := gsf
    rw [hc] at h
    simp only at h
    by_cases he : excludedTbl g s f = true
    · rw [if_pos he] at h; cases h
    · rw [if_neg he] at h
      have hk : s = k := congrArg Prod.fst (Option.some.injEq _ _ ▸ h)
      simp only [excludedTbl, Bool.or_eq_true, decide_eq_true_eq] at he
      push_neg at he
      intro hex
      rcases hex with h1 | h1 | h1
      · exact (hk ▸ he.1.1.1.1) h1
      · exact (hk ▸ he.1.2) h1
      · exact (hk ▸ he.2) h1

theorem keys_subset_addVal {β : Type} (m : List (String × List β)) (k : String) (v : β)
    (x : String) (hx : x ∈ (addVal m k v).map Prod.fst) :
    x ∈ m.map Prod.fst ∨ x = k := by
  rw [keys_addVal] at hx
  by_cases h2 : k ∈ m.map Prod.fst
  · rw [if_pos h2] at hx
    exact Or.inl hx
  · rw [if_neg h2, List.mem_append, List.mem_singleton] at hx
    exact hx

theorem keys_not_excl_parseTblFile (data : List String) (arch : String) (m : TblMap)
    (h : ∀ x ∈ m.map Prod.fst, ¬ exclName x) :
    ∀ x ∈ (parseTblFile data arch m).map Prod.fst, ¬ exclName x := by
  refine foldl_preserves (fun s => ∀ x ∈ s.map Prod.fst, ¬ exclName x) _ ?_ data m h
  intro s line hs x
  cases hp : parseTblLine arch line with
  | none => exact hs x
  | some kv =>
    intro hx
    rcases keys_subset_addVal s kv.1 kv.2 x hx with hm | he
    · exact hs x hm
    · exact he ▸ parseTblLine_not_exclName arch line kv.1 kv.2 (by rw [hp])

theorem keys_not_excl_aggregateTbl (tblFiles : List (List String × List String)) :
    ∀ x ∈ (aggregateTbl tblFiles).map Prod.fst, ¬ exclName x := by
  have base : ∀ x ∈ (([] : TblMap).map Prod.fst), ¬ exclName x := by simp
  refine foldl_preserves (fun s : TblMap => ∀ x ∈ s.map Prod.fst, ¬ exclName x) _ ?_ tblFiles [] base
  intro s fa hs
  exact foldl_preserves (fun s : TblMap => ∀ x ∈ s.map Prod.fst, ¬ exclName x) _
    (fun s arch hs => keys_not_excl_parseTblFile fa.1 arch s hs) fa.2 s hs

theorem mem_constFold (p : Prop) [Decidable p] (cs : List String) (acc : List String)
    (x : String) :
    (x ∈ cs.foldl (fun m c => if p then c :: m else m) acc) ↔ x ∈ acc ∨ (p ∧ x ∈ cs) := by
  induction cs generalizing acc with
  | nil => simp
  | cons c cs ih =>
    rw [List.foldl_cons, ih]
    by_cases hp : p
    · simp only [hp, if_true, List.mem_cons, true_and]
      tauto
    · simp [hp]

theorem mem_buildManualFold (consts : List (String × List String)) (autoFile : String)
    (acc : List String) (x : String) :
    (x ∈ consts.foldl
        (fun manual fc =>
          fc.2.foldl (fun manual c => if fc.1 ≠ autoFile then c :: manual else manual) manual)
        acc) ↔
      x ∈ acc ∨ ∃ fc, fc ∈ consts ∧ fc.1 ≠ autoFile ∧ x ∈ fc.2 := by
  induction consts generalizing acc with
  | nil => simp
  | cons fc rest ih =>
    rw [List.foldl_cons, ih, mem_constFold]
    simp only [List.mem_cons]
    constructor
    · rintro ((h | ⟨h1, h2⟩) | ⟨d, hd, h1, h2⟩)
      · exact Or.inl h
      · exact Or.inr ⟨fc, Or.inl rfl, h1, h2⟩
      · exact Or.inr ⟨d, Or.inr hd, h1, h2⟩
    · rintro (h | ⟨d, (hd | hd), h1, h2⟩)
      · exact Or.inl (Or.inl h)
      · exact Or.inl (Or.inr ⟨hd ▸ h1, hd ▸ h2⟩)
      · exact Or.inr ⟨d, hd, h1, h2⟩

theorem mem_buildManual (consts : List (String × List String)) (autoFile : String)
    (x : String) :
    (x ∈ buildManual consts autoFile) ↔
      ∃ fc, fc ∈ consts ∧ fc.1 ≠ autoFile ∧ x ∈ fc.2 := by
  have h := mem_buildManualFold consts autoFile [] x
  simpa [buildManual] using h

theorem foldl_tagJoin (tag : String) (xs : List String) (acc : String) :
    xs.foldl (fun a x => a ++ tag ++ x) acc = acc ++ tagJoin tag xs := by
  induction xs generalizing acc with
  | nil => simp [tagJoin, String.append_empty]
  | cons x xs ih =>
    rw [List.foldl_cons, ih, tagJoin]
    simp [String.append_assoc]

theorem joinTab_cons_append (pre : String) (xs : List String) :
    ∀ a : String, joinTab (a :: xs.map (fun x => pre ++ x)) =
      a ++ tagJoin ("\t" ++ pre) xs := by
  induction xs with
  | nil => intro a; simp [joinTab, tagJoin, String.append_empty]
  | cons x xs ih =>
    intro a
    rw [List.map_cons]
    show a ++ "\t" ++ joinTab ((pre ++ x) :: xs.map (fun x => pre ++ x)) = _
    rw [ih (pre ++ x), tagJoin]
    simp [String.append_assoc]

theorem joinTab_append_tagged (pre : String) (xs : List String) :
    ∀ l : List String, l ≠ [] →
      joinTab (l ++ xs.map (fun x => pre ++ x)) = joinTab l ++ tagJoin ("\t" ++ pre) xs := by
  intro l
  induction l with
  | nil => intro h; exact absurd rfl h
  | cons a l ih =>
    intro _
    cases l with
    | nil => simpa [joinTab] using joinTab_cons_append pre xs a
    | cons b l =>
      have hne : b :: l ≠ [] := by simp
      show a ++ "\t" ++ joinTab ((b :: l) ++ xs.map (fun x => pre ++ x)) = _
      rw [ih hne]
      simp [joinTab, String.append_assoc]

theorem joinTab_fixed (i : Interface) :
    joinTab [i.typ, i.name, "func:" ++ i.func, "access:" ++ i.access,
      "manual_desc:" ++ boolStr i.manualDescriptions,
      "auto_desc:" ++ boolStr i.autoDescriptions] =
      i.typ ++ "\t" ++ i.name ++ "\tfunc:" ++ i.func ++ "\taccess:" ++ i.access ++
        "\tmanual_desc:" ++ boolStr i.manualDescriptions ++
        "\tauto_desc:" ++ boolStr i.autoDescriptions := by
  apply String.ext
  have h1 : "\tfunc:".data = "\t".data ++ "func:".data := by decide
  have h2 : "\taccess:".data = "\t".data ++ "access:".data := by decide
  have h3 : "\tmanual_desc:".data = "\t".data ++ "manual_desc:".data := by decide
  have h4 : "\tauto_desc:".data = "\t".data ++ "auto_desc:".data := by decide
  simp [joinTab, String.data_append, h1, h2, h3, h4, List.append_assoc]

theorem serializeBody_eq_joinTab (i : Interface) :
    serializeBody i = joinTab (ifaceFields i) := by
  have hfile : ("\t" ++ "file:") = "\tfile:" := by decide
  have hsub : ("\t" ++ "subsystem:") = "\tsubsystem:" := by decide
  have hne1 : ([i.typ, i.name, "func:" ++ i.func, "access:" ++ i.access,
      "manual_desc:" ++ boolStr i.manualDescriptions,
      "auto_desc:" ++ boolStr i.autoDescriptions] : List String) ≠ [] := by simp
  have hne2 : ([i.typ, i.name, "func:" ++ i.func, "access:" ++ i.access,
      "manual_desc:" ++ boolStr i.manualDescriptions,
      "auto_desc:" ++ boolStr i.autoDescriptions] ++
        i.files.map (fun f => "file:" ++ f)) ≠ [] := by simp
  unfold serializeBody ifaceFields
  rw [foldl_tagJoin "\tfile:" i.files, foldl_tagJoin "\tsubsystem:" i.subsystems]
  rw [joinTab_append_tagged "subsystem:" i.subsystems _ hne2]
  rw [joinTab_append_tagged "file:" i.files _ hne1]
  rw [joinTab_fixed, hfile, hsub]

theorem splitTabAux_no_tab (l : List Char) (h : '\t' ∉ l) : splitTabAux l = [l] := by
  induction l with
  | nil => rfl
  | cons c rest ih =>
    have hc : ¬ c = '\t' := fun he => h (List.mem_cons.mpr (Or.inl he.symm))
    have hrest : '\t' ∉ rest := fun hm => h (List.mem_cons_of_mem c hm)
    simp [splitTabAux, hc, ih hrest]

theorem splitTabAux_append (f ys : List Char) (h : '\t' ∉ f) :
    splitTabAux (f ++ '\t' :: ys) = f :: splitTabAux ys := by
  induction f with
  | nil => simp [splitTabAux]
  | cons c rest ih =>
    have hc : ¬ c = '\t' := fun he => h (List.mem_cons.mpr (Or.inl he.symm))
    have hrest : '\t' ∉ rest := fun hm => h (List.mem_cons_of_mem c hm)
    rw [List.cons_append]
    simp [splitTabAux, hc, ih hrest]

theorem splitTabAux_joinChars : ∀ fields : List (List Char), fields ≠ [] →
    (∀ f ∈ fields, '\t' ∉ f) → splitTabAux (joinChars fields) = fields
  | [], h, _ => absurd rfl h
  | [f], _, hall => by
    simp [joinChars, splitTabAux_no_tab f (hall f (by simp))]
  | f :: g :: rest, _, hall => by
    rw [joinChars, splitTabAux_append f _ (hall f (by simp))]
    rw [splitTabAux_joinChars (g :: rest) (by simp)
      (fun x hx => hall x (List.mem_cons_of_mem f hx))]

theorem data_joinTab : ∀ fs : List String, (joinTab fs).data = joinChars (fs.map String.data)
  | [] => rfl
  | [_] => rfl
  | a :: b :: rest => by
    have htab : "\t".data = ['\t'] := rfl
    rw [joinTab, String.data_append, String.data_append, data_joinTab (b :: rest)]
    simp [joinChars, htab, List.append_assoc]

theorem tabFields_joinTab (fs : List String) (hne : fs ≠ []) (h : ∀ f ∈ fs, '\t' ∉ f.data) :
    tabFields (joinTab fs) = fs := by
  unfold tabFields
  rw [data_joinTab fs, splitTabAux_joinChars (fs.map String.data) (by simpa using hne)
    (by rintro f hf; obtain ⟨s, hs, rfl⟩ := List.mem_map.mp hf; exact h s hs)]
  rw [List.map_map, show (String.mk ∘ String.data) = id from funext fun s => by cases s; rfl]
  exact List.map_id fs

theorem mem_pruneNodes_char (autoFile : String) (unusedKeys : List String)
    (nodes : List Node) (n : Node) :
    (n ∈ pruneNodes autoFile unusedKeys nodes) ↔
      n ∈ nodes ∧ n.file = autoFile ∧ ¬ n.typ ++ n.name ∈ unusedKeys := by
  simp [pruneNodes, deleteFunc, List.mem_filter, not_or, List.elem_iff, and_assoc]

theorem parseTblLine_excluded (arch line group syscall fn : String)
    (hc : lineCandidate line = some (group, syscall, fn))
    (he : excludedTbl group syscall fn = true) : parseTblLine arch line = none := by
  unfold parseTblLine
  rw [hc]
  simp only [he, if_true]

/-- **C1, counterexample.**  The claim says a declaration node sourced from a
hand-authored (non-synthesized) file always remains in the document after
pruning.  It does not: pruning deletes every node whose source file differs
from the synthesized file, here a used hand-authored node. -/
theorem prune_removes_hand_authored_node :
    ¬ ({ file := "sys/linux/socket.txt", typ := "resource", name := "sock" } : Node) ∈
      pruneNodes "sys/linux/auto.txt" []
        [{ file := "sys/linux/socket.txt", typ := "resource", name := "sock" }] := by
  decide

/-- **C1 (amended).**  Pruning removes from the parsed document every
declaration node whose source position is not the synthesized file, together
with every synthesized-file node whose `(kind, name)` key is in the
Unused-Node Set: a node remains exactly when it is sourced from the
synthesized file and is not flagged unused.  Hand-authored nodes are thus
dropped from the in-memory document (their own files on disk are untouched;
only the synthesized file is rewritten). -/
theorem prune_keeps_exactly_used_synthesized (autoFile : String) (unusedKeys : List String)
    (nodes : List Node) (n : Node) :
    (n ∈ pruneNodes autoFile unusedKeys nodes) ↔
      n ∈ nodes ∧ n.file = autoFile ∧ ¬ n.typ ++ n.name ∈ unusedKeys :=
  mem_pruneNodes_char autoFile unusedKeys nodes n

/-- **C10.**  Every file write of `run` targets the synthesized description
file or its `.info` catalog sibling, and every node that survives pruning —
the only content serialized into the final synthesized file — is sourced
from the synthesized file.  Hand-authored description files are therefore
never created, modified, or overwritten. -/
theorem run_writes_only_synthesized (autoFile d i1 i2 f : String)
    (unusedKeys : List String) (nodes : List Node) :
    (∀ p ∈ (runWrites autoFile d i1 i2 f).map Prod.fst,
      p = autoFile ∨ p = autoFile ++ ".info") ∧
    (∀ n ∈ pruneNodes autoFile unusedKeys nodes, n.file = autoFile) := by
  constructor
  · intro p hp
    simp only [runWrites, List.map_cons, List.map_nil, List.mem_cons, List.not_mem_nil,
      or_false] at hp
    rcases hp with h | h | h | h <;> simp [h]
  · intro n hn
    exact ((mem_pruneNodes_char autoFile unusedKeys nodes n).mp hn).2.1

/-- Closed witness for `run_writes_only_synthesized`. -/
theorem run_writes_only_synthesized_witness :
    ("sys/linux/auto.txt" : String) = "sys/linux/auto.txt" ∨
      ("sys/linux/auto.txt" : String) = "sys/linux/auto.txt" ++ ".info" :=
  (run_writes_only_synthesized "sys/linux/auto.txt" "d" "i1" "i2" "f" [] []).1
    "sys/linux/auto.txt" (by decide)

/-- **C3, counterexample.**  The claim says a table line is ignored when it
starts with `#`.  The code only skips a line whose first whitespace-separated
field is exactly `"#"`: the line `"#288 common foo sys_foo"` starts with `#`
yet yields a candidate record. -/
theorem comment_like_line_not_ignored :
    goHasPre "#288 common foo sys_foo" "#" = true ∧
      parseTblLine "amd64" "#288 common foo sys_foo" =
        some ("foo", { fn := "foo", arch := "amd64", is64bit := true }) := by
  decide

/-- **C3 (amended).**  A table-file line is ignored when it has fewer than 4
whitespace-separated fields or its first field is exactly `#`; every other
line yields a candidate with group = field 2, syscall name = field 3, and
entry symbol = field 4 with the `sys_` kernel prefix stripped; and a
non-excluded candidate is aggregated as a record whose `is64Bit` flag is true
exactly when the group equals `common` or contains the substring `64`. -/
theorem tbl_line_parse_char (line arch : String) :
    ((goFields line).length < 4 ∨ (goFields line).headD "" = "#" →
      lineCandidate line = none) ∧
    (4 ≤ (goFields line).length → (goFields line).headD "" ≠ "#" →
      lineCandidate line =
        some ((goFields line).getD 1 "", (goFields line).getD 2 "",
          goTrimPre ((goFields line).getD 3 "") "sys_")) ∧
    (∀ group syscall fn, lineCandidate line = some (group, syscall, fn) →
      excludedTbl group syscall fn = false →
      ∃ rec, parseTblLine arch line = some (syscall, rec) ∧ rec.fn = fn ∧
        rec.arch = arch ∧
        (rec.is64bit = true ↔ (group = "common" ∨ goContains group "64" = true))) := by
  refine ⟨?_, ?_, ?_⟩
  · intro h
    unfold lineCandidate
    rw [if_pos h]
  · intro h1 h2
    unfold lineCandidate
    rw [if_neg (by push_neg; exact ⟨h1, h2⟩)]
  · intro group syscall fn hc hex
    unfold parseTblLine
    rw [hc]
    simp only [hex, Bool.false_eq_true, if_false]
    exact ⟨_, rfl, rfl, rfl, by simp⟩

/-- Closed witness for `tbl_line_parse_char`, at the spec's own example line. -/
theorem tbl_line_parse_char_witness :
    lineCandidate "288 common accept4 sys_accept4" = some ("common", "accept4", "accept4") :=
  (tbl_line_parse_char "288 common accept4 sys_accept4" "amd64").2.1 (by decide) (by decide)

/-- **C4.**  A candidate whose syscall name starts with `unused`, or whose
stripped entry symbol is `-`, or whose group is `spu`, or whose syscall name
is `llseek` or `reboot`, is discarded before aggregation (conjunct 1), so
processing such a line leaves the aggregation map unchanged (conjunct 2);
and a name excluded by name alone (`unused*`, `llseek`, `reboot`) never
appears in any value set of the emitted Identity Map (conjunct 3). -/
theorem excluded_candidates_never_aggregated :
    (∀ arch line group syscall fn, lineCandidate line = some (group, syscall, fn) →
      excludedTbl group syscall fn = true → parseTblLine arch line = none) ∧
    (∀ arch line group syscall fn (m : TblMap),
      lineCandidate line = some (group, syscall, fn) →
      excludedTbl group syscall fn = true → parseTblFile [line] arch m = m) ∧
    (∀ tblFiles targetArch name, exclName name →
      ∀ fn, ¬ name ∈ lookupVals (buildRenameFrom targetArch (aggregateTbl tblFiles)) fn) := by
  refine ⟨?_, ?_, ?_⟩
  · intro arch line group syscall fn hc he
    exact parseTblLine_excluded arch line group syscall fn hc he
  · intro arch line group syscall fn m hc he
    unfold parseTblFile
    rw [List.foldl_cons, List.foldl_nil, parseTblLine_excluded arch line group syscall fn hc he]
  · intro tblFiles targetArch name hex fn hmem
    obtain ⟨descs, hd, _⟩ := (mem_buildRenameFrom targetArch (aggregateTbl tblFiles) fn name).mp hmem
    exact keys_not_excl_aggregateTbl tblFiles name (List.mem_map_of_mem Prod.fst hd) hex

/-- Closed witness for `excluded_candidates_never_aggregated`. -/
theorem excluded_candidates_never_aggregated_witness :
    parseTblLine "amd64" "62 32 llseek sys_llseek" = none :=
  excluded_candidates_never_aggregated.1 "amd64" "62 32 llseek sys_llseek" "32" "llseek"
    "llseek" (by decide) (by decide)

/-- **C9.**  The resolver fails with the no-table-files error exactly when
the discovered set of table files is empty; on a nonempty set it proceeds to
parsing and aggregation and returns the Identity Map. -/
theorem no_table_files_error_iff (sourceDir targetArch : String)
    (tblFiles : List (List String × List String)) :
    (tblFiles = [] →
      buildSyscallRenameMap sourceDir targetArch tblFiles =
        Except.error ("found no *.tbl files in the kernel dir " ++ sourceDir)) ∧
    (∀ e, buildSyscallRenameMap sourceDir targetArch tblFiles = Except.error e →
      tblFiles = []) ∧
    (tblFiles ≠ [] →
      buildSyscallRenameMap sourceDir targetArch tblFiles =
        Except.ok (buildRenameFrom targetArch (aggregateTbl tblFiles))) := by
  refine ⟨?_, ?_, ?_⟩
  · intro h
    subst h
    rfl
  · intro e he
    by_cases h : tblFiles.length = 0
    · exact List.length_eq_zero.mp h
    · unfold buildSyscallRenameMap at he
      rw [if_neg h] at he
      cases he
  · intro h
    unfold buildSyscallRenameMap
    rw [if_neg (by simpa [List.length_eq_zero] using h)]

/-- Closed witness for `no_table_files_error_iff`. -/
theorem no_table_files_error_iff_witness :
    buildSyscallRenameMap "linux" "amd64" [] =
      Except.error ("found no *.tbl files in the kernel dir " ++ "linux") :=
  (no_table_files_error_iff "linux" "amd64" []).1 rfl

theorem specLe_refl (targetArch : String) (a : tblSyscall) : specLe targetArch a a :=
  Or.inr ⟨rfl, Or.inr ⟨rfl, le_refl _⟩⟩

/-- **C2.**  The sorted candidate list is a permutation of the input that is
pairwise ordered by the claimed priority (target architecture first, then
64-bit before 32-bit, then architecture name ascending); the head taken by
the resolver is minimal for that priority among all candidates; and on the
claim's concrete pair the target-architecture 32-bit record `A` wins over
the other-architecture 64-bit record `B`. -/
theorem tie_break_order (targetArch : String) (descs : List tblSyscall) :
    (sortTbl targetArch descs).Perm descs ∧
    (sortTbl targetArch descs).Pairwise (specLe targetArch) ∧
    (∀ b ∈ descs, specLe targetArch ((sortTbl targetArch descs).headD dummyTbl) b) ∧
    buildRenameFrom "amd64"
      [("X", [{ fn := "B", arch := "arm64", is64bit := true },
              { fn := "A", arch := "amd64", is64bit := false }])] = [("A", ["X"])] := by
  refine ⟨sortTbl_perm targetArch descs, sortTbl_sorted targetArch descs, ?_, by decide⟩
  intro b hb
  have hperm := sortTbl_perm targetArch descs
  have hsort := sortTbl_sorted targetArch descs
  have hb2 : b ∈ sortTbl targetArch descs := hperm.mem_iff.mpr hb
  cases hs : sortTbl targetArch descs with
  | nil => rw [hs] at hb2; cases hb2
  | cons h t =>
    rw [hs] at hb2 hsort
    rcases List.mem_cons.mp hb2 with rfl | hbt
    · exact specLe_refl targetArch b
    · exact (List.pairwise_cons.mp hsort).1 b hbt

/-- Closed witness for `tie_break_order`. -/
theorem tie_break_order_witness :
    specLe "amd64"
      ((sortTbl "amd64" [{ fn := "B", arch := "arm64", is64bit := true },
                         { fn := "A", arch := "amd64", is64bit := false }]).headD dummyTbl)
      { fn := "B", arch := "arm64", is64bit := true } :=
  (tie_break_order "amd64" [{ fn := "B", arch := "arm64", is64bit := true },
                            { fn := "A", arch := "amd64", is64bit := false }]).2.2.1
    { fn := "B", arch := "arm64", is64bit := true } (by decide)

/-- **C5.**  In the emitted Identity Map, an aggregated syscall name appears
in the value set of its tie-break winner (conjunct 1) and of no other entry
symbol (conjunct 2); and any two names whose candidate lists share the same
winner both appear in that winner's value set (conjunct 3). -/
theorem identity_map_exactly_one (targetArch : String)
    (tblFiles : List (List String × List String)) (name : String)
    (descs : List tblSyscall) (hm : (name, descs) ∈ aggregateTbl tblFiles) :
    (name ∈ lookupVals (buildRenameFrom targetArch (aggregateTbl tblFiles))
        (winnerFn targetArch descs)) ∧
    (∀ fn, name ∈ lookupVals (buildRenameFrom targetArch (aggregateTbl tblFiles)) fn →
      fn = winnerFn targetArch descs) ∧
    (∀ name2 descs2, (name2, descs2) ∈ aggregateTbl tblFiles →
      winnerFn targetArch descs2 = winnerFn targetArch descs →
      name2 ∈ lookupVals (buildRenameFrom targetArch (aggregateTbl tblFiles))
        (winnerFn targetArch descs)) := by
  refine ⟨?_, ?_, ?_⟩
  · exact (mem_buildRenameFrom targetArch _ _ name).mpr ⟨descs, hm, rfl⟩
  · intro fn h
    obtain ⟨d, hd, hw⟩ := (mem_buildRenameFrom targetArch _ fn name).mp h
    have hde : d = descs :=
      entry_unique _ (keys_nodup_aggregateTbl tblFiles) name d descs hd hm
    rw [← hw, hde]
  · intro name2 descs2 h2 hw
    exact (mem_buildRenameFrom targetArch _ _ name2).mpr ⟨descs2, h2, hw⟩

/-- Closed witness for `identity_map_exactly_one`: two names sharing the
entry symbol `impl` both land in its value set. -/
theorem identity_map_exactly_one_witness :
    "foo" ∈ lookupVals
      (buildRenameFrom "amd64"
        (aggregateTbl [(["1 common foo sys_impl", "2 common bar sys_impl"], ["amd64"])]))
      (winnerFn "amd64" [{ fn := "impl", arch := "amd64", is64bit := true }]) :=
  (identity_map_exactly_one "amd64"
      [(["1 common foo sys_impl", "2 common bar sys_impl"], ["amd64"])]
      "foo" [{ fn := "impl", arch := "amd64", is64bit := true }] (by decide)).1

/-- **C6, counterexample.**  The two association lists below are the same
aggregation map presented in two iteration orders (they are permutations of
each other); the resolver's output differs between them as a list-valued
map — the names under `impl` come out in iteration order — so two runs are
not bit-identical once the Go map's randomized iteration order changes. -/
theorem rename_value_order_depends_on_iteration :
    buildRenameFrom "amd64"
        [("foo", [{ fn := "impl", arch := "amd64", is64bit := true }]),
         ("bar", [{ fn := "impl", arch := "amd64", is64bit := true }])] ≠
      buildRenameFrom "amd64"
        [("bar", [{ fn := "impl", arch := "amd64", is64bit := true }]),
         ("foo", [{ fn := "impl", arch := "amd64", is64bit := true }])] := by
  decide

/-- **C6 (amended).**  For a fixed aggregation of the table files and a fixed
target architecture, the Identity Map is deterministic as a set-valued map:
whatever iteration order the syscall map is traversed in, the same syscall
names end up under the same entry symbols.  The order of names inside one
symbol's value list, however, follows the iteration order and is not fixed
(see the counterexample). -/
theorem rename_map_set_deterministic (targetArch : String) (m1 m2 : TblMap)
    (hperm : m1.Perm m2) (fn name : String) :
    (name ∈ lookupVals (buildRenameFrom targetArch m1) fn) ↔
      name ∈ lookupVals (buildRenameFrom targetArch m2) fn := by
  rw [mem_buildRenameFrom, mem_buildRenameFrom]
  constructor <;> rintro ⟨d, hd, hw⟩
  · exact ⟨d, hperm.mem_iff.mp hd, hw⟩
  · exact ⟨d, hperm.mem_iff.mpr hd, hw⟩

/-- Closed witness for `rename_map_set_deterministic`, at the two iteration
orders of the counterexample. -/
theorem rename_map_set_deterministic_witness :
    ("foo" ∈ lookupVals
        (buildRenameFrom "amd64"
          [("foo", [{ fn := "impl", arch := "amd64", is64bit := true }]),
           ("bar", [{ fn := "impl", arch := "amd64", is64bit := true }])]) "impl") ↔
      "foo" ∈ lookupVals
        (buildRenameFrom "amd64"
          [("bar", [{ fn := "impl", arch := "amd64", is64bit := true }]),
           ("foo", [{ fn := "impl", arch := "amd64", is64bit := true }])]) "impl" :=
  rename_map_set_deterministic "amd64" _ _ (by decide) "impl" "foo"

/-- **C7.**  After enrichment every record's manual-description flag is true
iff its identifying constant is declared by some source file other than the
synthesized file; enrichment is a total function of the inputs (it raises no
error), and a record matching no manual constant and no subsystem keeps a
false flag and an empty subsystem set. -/
theorem finish_interfaces_char (extract : List String → List String)
    (consts : List (String × List String)) (autoFile : String)
    (interfaces : List Interface) (j : Interface)
    (hj : j ∈ finishInterfaces extract consts autoFile interfaces) :
    ∃ i, i ∈ interfaces ∧ j = finishOne extract (buildManual consts autoFile) i ∧
      ((j.manualDescriptions = true) ↔
        ∃ fc, fc ∈ consts ∧ fc.1 ≠ autoFile ∧ i.identifyingConst ∈ fc.2) ∧
      (i.subsystems = [] → extract i.files = [] → j.subsystems = []) := by
  obtain ⟨i, hi, rfl⟩ := List.mem_map.mp hj
  refine ⟨i, hi, rfl, ?_, ?_⟩
  · show ((buildManual consts autoFile).contains i.identifyingConst = true) ↔ _
    exact Iff.trans List.elem_iff (mem_buildManual consts autoFile i.identifyingConst)
  · intro h1 h2
    show sortStr (i.subsystems ++ extract i.files) = []
    rw [h1, h2]
    rfl

/-- Closed witness for `finish_interfaces_char`: the identifying constant is
declared only by the synthesized file, so the flag stays false and the
subsystem set stays empty. -/
theorem finish_interfaces_char_witness :
    ∃ i, i ∈ [exIface] ∧
      finishOne (fun _ => []) (buildManual [("sys/linux/auto.txt", ["KVM_RUN"])]
        "sys/linux/auto.txt") exIface =
        finishOne (fun _ => []) (buildManual [("sys/linux/auto.txt", ["KVM_RUN"])]
          "sys/linux/auto.txt") i ∧
      (((finishOne (fun _ => []) (buildManual [("sys/linux/auto.txt", ["KVM_RUN"])]
          "sys/linux/auto.txt") exIface).manualDescriptions = true) ↔
        ∃ fc, fc ∈ [("sys/linux/auto.txt", ["KVM_RUN"])] ∧ fc.1 ≠ "sys/linux/auto.txt" ∧
          i.identifyingConst ∈ fc.2) ∧
      (i.subsystems = [] → (fun _ => ([] : List String)) i.files = [] →
        (finishOne (fun _ => []) (buildManual [("sys/linux/auto.txt", ["KVM_RUN"])]
          "sys/linux/auto.txt") exIface).subsystems = []) := by
  have h := finish_interfaces_char (fun _ => []) [("sys/linux/auto.txt", ["KVM_RUN"])]
    "sys/linux/auto.txt" [exIface]
    (finishOne (fun _ => []) (buildManual [("sys/linux/auto.txt", ["KVM_RUN"])]
      "sys/linux/auto.txt") exIface) (by decide)
  obtain ⟨i, hi, he, hflag, hsub⟩ := h
  exact ⟨i, hi, he, by rw [he] at hflag ⊢; exact hflag, by rw [he] at hsub ⊢; exact hsub⟩

theorem tab_not_in_append (a b : String) (ha : ¬ '\t' ∈ a.data) (hb : ¬ '\t' ∈ b.data) :
    ¬ '\t' ∈ (a ++ b).data := by
  rw [String.data_append]
  intro h
  rcases List.mem_append.mp h with h | h
  exacts [ha h, hb h]

theorem boolStr_tab_free (b : Bool) : ¬ '\t' ∈ (boolStr b).data := by
  cases b <;> decide

theorem ifaceFields_tab_free (i : Interface)
    (htyp : ¬ '\t' ∈ i.typ.data) (hname : ¬ '\t' ∈ i.name.data)
    (hfunc : ¬ '\t' ∈ i.func.data) (hacc : ¬ '\t' ∈ i.access.data)
    (hfiles : ∀ f ∈ i.files, ¬ '\t' ∈ f.data)
    (hsubs : ∀ s ∈ i.subsystems, ¬ '\t' ∈ s.data) :
    ∀ f ∈ ifaceFields i, ¬ '\t' ∈ f.data := by
  intro f hf
  simp only [ifaceFields, List.mem_append, List.mem_cons, List.not_mem_nil, or_false,
    List.mem_map] at hf
  rcases hf with ((rfl | rfl | rfl | rfl | rfl | rfl) | ⟨x, hx, rfl⟩) | ⟨x, hx, rfl⟩
  · exact htyp
  · exact hname
  · exact tab_not_in_append _ _ (by decide) hfunc
  · exact tab_not_in_append _ _ (by decide) hacc
  · exact tab_not_in_append _ _ (by decide) (boolStr_tab_free _)
  · exact tab_not_in_append _ _ (by decide) (boolStr_tab_free _)
  · exact tab_not_in_append _ _ (by decide) (hfiles x hx)
  · exact tab_not_in_append _ _ (by decide) (hsubs x hx)

/-- **C8, counterexample.**  A persisted catalog line has six fixed
tab-separated fields before the repeated `file:`/`subsystem:` fields, not
seven as the claim counts them (the identifying constant is not
serialized). -/
theorem catalog_fixed_fields_are_six_not_seven :
    fixedFieldCount (serializeIface (finishOne (fun _ => ["net", "fs"]) [] exIface)) = 6 ∧
      fixedFieldCount (serializeIface (finishOne (fun _ => ["net", "fs"]) [] exIface)) ≠ 7 := by
  decide

/-- **C8 (amended).**  Every persisted catalog line for an enriched record
consists of the six fixed tab-separated fields — type, name, `func:`,
`access:`, `manual_desc:`, `auto_desc:` — followed by one `file:` field per
associated file in record order and one `subsystem:` field per subsystem,
then a newline; splitting the line at tabs recovers exactly that field list
(for tab-free field values); the subsystem fields appear in ascending
lexicographic order, and for subsystems `net`/`fs` the persisted order is
`fs` then `net`. -/
theorem catalog_line_structure (extract : List String → List String) (manual : List String)
    (i : Interface)
    (htyp : ¬ '\t' ∈ i.typ.data) (hname : ¬ '\t' ∈ i.name.data)
    (hfunc : ¬ '\t' ∈ i.func.data) (hacc : ¬ '\t' ∈ i.access.data)
    (hfiles : ∀ f ∈ i.files, ¬ '\t' ∈ f.data)
    (hsubs : ∀ s ∈ i.subsystems, ¬ '\t' ∈ s.data)
    (hextract : ∀ s ∈ extract i.files, ¬ '\t' ∈ s.data) :
    serializeIface (finishOne extract manual i) =
      joinTab (ifaceFields (finishOne extract manual i)) ++ "\n" ∧
    tabFields (serializeBody (finishOne extract manual i)) =
      ifaceFields (finishOne extract manual i) ∧
    (finishOne extract manual i).subsystems.Pairwise (· ≤ ·) ∧
    (finishOne (fun _ => ["net", "fs"]) [] exIface).subsystems = ["fs", "net"] := by
  have hsubsj : ∀ s ∈ (finishOne extract manual i).subsystems, ¬ '\t' ∈ s.data := by
    intro s hs
    have hmem : s ∈ i.subsystems ++ extract i.files :=
      (sortStr_perm (i.subsystems ++ extract i.files)).mem_iff.mp hs
    rcases List.mem_append.mp hmem with h | h
    · exact hsubs s h
    · exact hextract s h
  have htf : ∀ f ∈ ifaceFields (finishOne extract manual i), ¬ '\t' ∈ f.data :=
    ifaceFields_tab_free (finishOne extract manual i) htyp hname hfunc hacc hfiles hsubsj
  refine ⟨?_, ?_, sortStr_sorted _, by decide⟩
  · show serializeBody (finishOne extract manual i) ++ "\n" = _
    rw [serializeBody_eq_joinTab]
  · rw [serializeBody_eq_joinTab]
    exact tabFields_joinTab _ (by simp [ifaceFields]) htf

/-- Closed witness for `catalog_line_structure`. -/
theorem catalog_line_structure_witness :
    (finishOne (fun _ => ["net", "fs"]) [] exIface).subsystems = ["fs", "net"] :=
  (catalog_line_structure (fun _ => ["net", "fs"]) [] exIface (by decide) (by decide)
    (by decide) (by decide) (by decide) (by decide) (by decide)).2.2.2
